import Mathlib

/-
Shallow embedding of the crawl-and-aggregate engine of
src/services/wikipedia.py (class WikipediaAnalyzer).

Modelling conventions:
  - Python dictionaries and collections.Counter are modelled as association
    lists (List (String × Nat)); set semantics of the visited set is kept by
    only ever inserting an element after a membership test, exactly as the
    source does.
  - Python float percentage values (calculate_statistics) are modelled by
    exact rational numbers (Rat): no discrete behavior of the program depends
    on their rounding.  The percentile index computation, whose rounding does
    change which count is selected, is modelled bit-exactly: every IEEE
    binary64 value is a dyadic rational, and each operation of
    int(len(counts) * (1 - percentile / 100)) is performed by rounding the
    exact rational result to 53 significant bits, round to nearest, ties to
    even, in pure integer arithmetic (see pyPercentileIndex).
  - Python builtin sorted(-, reverse=True) on natural numbers is modelled by
    List.insertionSort with the relation (fun a b => a >= b): both are sorted
    permutations, and on Nat (where equal elements are indistinguishable) any
    two descending sorted permutations are equal as lists.
  - External collaborators (httpx responses, BeautifulSoup extraction) are
    modelled as oracle functions supplied in an environment record; the
    recursion of crawl is driven by a fuel argument that is instantiated with
    depth + 1 - current_depth, which is exactly the number of recursion levels
    the Python code can perform.
-/

set_option maxRecDepth 40000

namespace WordFreq

/-- The apostrophe character, written via its code point. -/
def apos : Char := Char.ofNat 39

/-- Character class [a-z] of the tokenizer regex. -/
def isLowerAlpha (c : Char) : Bool := decide ('a' ≤ c) && decide (c ≤ 'z')

/-- Character class [a-z0-9] of the tokenizer regex. -/
def isTokChar (c : Char) : Bool := isLowerAlpha c || (decide ('0' ≤ c) && decide (c ≤ '9'))

/-- ASCII lowercasing of one character, modelling Python str.lower on the
ASCII range (the only range the token character classes can match). -/
def pyLowerChar (c : Char) : Char :=
  if decide ('A' ≤ c) && decide (c ≤ 'Z') then Char.ofNat (c.toNat + 32) else c

/-- Greedy scan of the group part of the regex (an apostrophe followed by one
or more lowercase letters, the whole group repeated zero or more times):
starting at the head of the list, repeatedly consume an apostrophe followed by
a maximal nonempty run of lowercase letters.  Returns the consumed characters
and the rest.  The fuel argument only drives the recursion; each step consumes
at least two characters, so fuel = length of the list is always enough. -/
def munchGroups : Nat → List Char → List Char × List Char
  | 0, l => ([], l)
  | _ + 1, [] => ([], [])
  | fuel + 1, c :: rest =>
    if c = apos then
      let run := rest.takeWhile isLowerAlpha
      if run.isEmpty then ([], c :: rest)
      else
        let step := munchGroups fuel (rest.dropWhile isLowerAlpha)
        (apos :: run ++ step.1, step.2)
    else ([], c :: rest)

/-- Left-to-right scan of re.findall with the token pattern: a nonempty run
of [a-z0-9], then zero or more apostrophe groups
(for this pattern the greedy scan and the regex agree: nothing follows the
final star, so no backtracking can occur).  Characters that cannot start a
match are skipped, exactly as re.findall resumes the search one position
later.  Fuel = length of the list is always enough, since each step consumes
at least one character. -/
def scanTokens : Nat → List Char → List (List Char)
  | 0, _ => []
  | _ + 1, [] => []
  | fuel + 1, c :: rest =>
    if isTokChar c then
      let run := (c :: rest).takeWhile isTokChar
      let rest1 := (c :: rest).dropWhile isTokChar
      let step := munchGroups rest1.length rest1
      (run ++ step.1) :: scanTokens fuel step.2
    else scanTokens fuel rest

/-- Embedding of WikipediaAnalyzer._tokenize_text:
words = re.findall(pattern, text.lower()). -/
def tokenize_text (text : String) : List String :=
  let chars := text.toList.map pyLowerChar
  (scanTokens chars.length chars).map (fun l => String.mk l)

/-- Python whitespace characters stripped by str.strip (ASCII range). -/
def isSpaceChar (c : Char) : Bool :=
  c = ' ' || c = '\t' || c = '\n' || c = '\r' || c = '\x0b' || c = '\x0c'

/-- Embedding of str.strip: drop whitespace from both ends. -/
def pyStrip (l : List Char) : List Char :=
  ((l.dropWhile isSpaceChar).reverse.dropWhile isSpaceChar).reverse

/-- Value of a hexadecimal digit, if any. -/
def hexVal (c : Char) : Option Nat :=
  if decide ('0' ≤ c) && decide (c ≤ '9') then some (c.toNat - 48)
  else if decide ('a' ≤ c) && decide (c ≤ 'f') then some (c.toNat - 87)
  else if decide ('A' ≤ c) && decide (c ≤ 'F') then some (c.toNat - 70)
  else none

/-- Embedding of urllib.parse.unquote restricted to single-byte (ASCII)
percent escapes: a percent sign followed by two hex digits whose value is
below 128 decodes to that character, anything else is kept literally.
Multi-byte UTF-8 escapes of the library are outside the ASCII model; no
claim depends on them. -/
def pyUnquote : List Char → List Char
  | [] => []
  | '%' :: a :: b :: rest =>
    match hexVal a, hexVal b with
    | some hi, some lo =>
      if 16 * hi + lo < 128 then Char.ofNat (16 * hi + lo) :: pyUnquote rest
      else '%' :: a :: b :: pyUnquote rest
    | _, _ => '%' :: pyUnquote (a :: b :: rest)
  | c :: rest => c :: pyUnquote rest

/-- Embedding of WikipediaAnalyzer._normalize_title:
unquote(title.strip().replace(' ', '_')).lower(). -/
def normalize_title (title : String) : String :=
  String.mk
    ((pyUnquote ((pyStrip title.toList).map (fun c => if c = ' ' then '_' else c))).map
      pyLowerChar)

/-! ### Fetcher (fetch_article) -/

/-- Outcome of one HTTP attempt: a 200 response carrying the body text, any
other status code, or an httpx.RequestError. -/
inductive FetchResp where
  | ok (body : String)
  | status (code : Nat)
  | netError
  deriving DecidableEq

/-- Result of the try/except part of one iteration of the retry loop:
some s models a return statement executing with value s inside the
try block (status 200 returns the body, status 404 returns the empty
string); none models falling through (any other status, or a caught
request error). -/
def tryBlockResult : FetchResp → Option String
  | .ok body => some body
  | .status code => if code = 404 then some "" else none
  | .netError => none

/-- One full iteration of the loop body of fetch_article.  After the
try/except block, the source has a return of the empty string that is
indented inside the loop body, so every path through the body returns:
the result is always some. -/
def loopBody (r : FetchResp) : Option String :=
  match tryBlockResult r with
  | some s => some s
  | none => some ""

/-- The loop for attempt in range(3) of fetch_article, given an oracle
assigning a response to each attempt number.  none models the Python
function falling off the end of the loop and implicitly returning None;
because loopBody always returns some, the recursive continuation is
unreachable and the first iteration decides the result. -/
def fetchFor (responses : Nat → FetchResp) : Nat → Nat → Option String
  | 0, _ => none
  | remaining + 1, attempt =>
    match loopBody (responses attempt) with
    | some s => some s
    | none => fetchFor responses remaining (attempt + 1)

/-- Embedding of WikipediaAnalyzer.fetch_article as the source has it. -/
def fetch_article (responses : Nat → FetchResp) : Option String :=
  fetchFor responses 3 0

/-- Modelled from the spec (sections 4.4 and 7), code that the repository
does not realize: the intended retry semantics in which a non-200/404
status or a transient network error falls through to the next attempt, and
only after the retry budget of 3 attempts is exhausted does the fetch
degrade to the empty string. -/
def specFetchFor (responses : Nat → FetchResp) : Nat → Nat → String
  | 0, _ => ""
  | remaining + 1, attempt =>
    match tryBlockResult (responses attempt) with
    | some s => s
    | none => specFetchFor responses remaining (attempt + 1)

/-- Modelled from the spec: fetch_article with the stated 3-attempt budget. -/
def fetch_article_spec (responses : Nat → FetchResp) : String :=
  specFetchFor responses 3 0

/-- A concrete response oracle: the first attempt hits a transient HTTP 500,
every later attempt would succeed with status 200 and body "body". -/
def retryScenario : Nat → FetchResp :=
  fun attempt => if attempt = 0 then .status 500 else .ok "body"

/-! ### Statistics engine -/

/-- Result shape of calculate_statistics: the word_count dictionary, the
word_percentage dictionary and the total, modelled as association lists. -/
structure Stats where
  word_count : List (String × Nat)
  word_percentage : List (String × Rat)
  total_words : Nat
  deriving DecidableEq

/-- Embedding of WikipediaAnalyzer.calculate_statistics over an accumulator
state (the word_counter field).  Percentages are (count / total_words) * 100
in exact rational arithmetic. -/
def calculate_statistics (word_counter : List (String × Nat)) : Stats :=
  let total_words : Nat := (word_counter.map (·.2)).sum
  if total_words = 0 then ⟨[], [], 0⟩
  else
    ⟨word_counter,
     word_counter.map (fun p => (p.1, ((p.2 : Rat) / (total_words : Rat)) * 100)),
     total_words⟩

/-- counts = sorted(word_count.values(), reverse=True): the descending sorted
list of the counts. -/
def countsDesc (word_count : List (String × Nat)) : List Nat :=
  List.insertionSort (fun a b => a ≥ b) (word_count.map (·.2))

/-! #### Bit-exact model of the IEEE binary64 index computation

The source computes index = int(len(counts) * (1 - percentile / 100)) in
Python floats (IEEE binary64, round to nearest, ties to even).  Every
binary64 value is a dyadic rational, so each operation is modelled exactly:
the exact rational result of each step is rounded to 53 significant bits.
All arithmetic below is on integers, so the model is kernel-computable.
Subnormals and overflow are outside the range these inputs can produce. -/

/-- Floor of the base-2 logarithm, fuel-driven structural recursion
(fuel = n is always enough). -/
def natLog2F : Nat → Nat → Nat
  | 0, _ => 0
  | fuel + 1, n => if 2 ≤ n then natLog2F fuel (n / 2) + 1 else 0

/-- Floor of the base-2 logarithm of a natural number (0 for inputs below 2). -/
def natLog2 (n : Nat) : Nat := natLog2F n n

/-- Floor of the base-2 logarithm of the fraction a / b (a, b positive):
the candidate natLog2 a - natLog2 b is off by at most one and is corrected
by a direct comparison. -/
def floorLog2F (a b : Nat) : Int :=
  let c : Int := (natLog2 a : Int) - (natLog2 b : Int)
  let ok : Bool :=
    if 0 ≤ c then decide (b * 2 ^ c.toNat ≤ a) else decide (b ≤ a * 2 ^ (-c).toNat)
  if ok then c else c - 1

/-- Round the fraction n / d to the nearest integer, ties to even. -/
def rne (n d : Nat) : Nat :=
  if 2 * (n % d) < d then n / d
  else if d < 2 * (n % d) then n / d + 1
  else if (n / d) % 2 = 0 then n / d else n / d + 1

/-- Round the nonnegative fraction a / b to 53 significant bits (binary64,
round to nearest, ties to even).  The result is the dyadic pair (num, k)
with value num / 2 ^ k: the mantissa is obtained by scaling the fraction by
2 ^ (52 - floorLog2) so that it lies in [2^52, 2^53) and rounding to the
nearest integer. -/
def roundPosD (a b : Nat) : Int × Nat :=
  if a = 0 then (0, 0)
  else if 0 ≤ 52 - floorLog2F a b then
    (((rne (a * 2 ^ (52 - floorLog2F a b).toNat) b : Nat) : Int),
      (52 - floorLog2F a b).toNat)
  else
    (((rne a (b * 2 ^ (-(52 - floorLog2F a b)).toNat) : Nat) : Int) *
      2 ^ (-(52 - floorLog2F a b)).toNat, 0)

/-- Round the fraction n / d (n signed) to binary64, as a dyadic pair. -/
def roundD (n : Int) (d : Nat) : Int × Nat :=
  if 0 ≤ n then roundPosD n.toNat d
  else
    let r := roundPosD (-n).toNat d
    (-r.1, r.2)

/-- The double percentile / 100 (exact integer operands, correctly rounded
division). -/
def pyD1 (percentile : Int) : Int × Nat := roundD percentile 100

/-- The double 1 - pyD1: the exact difference (2^k - num) / 2^k of the two
doubles, correctly rounded. -/
def pyD2 (percentile : Int) : Int × Nat :=
  roundD ((2 : Int) ^ (pyD1 percentile).2 - (pyD1 percentile).1) (2 ^ (pyD1 percentile).2)

/-- The double float(len(counts)): integer-to-float conversion rounds to
nearest (exact below 2^53). -/
def pyNF (n : Nat) : Int × Nat := roundD (n : Int) 1

/-- The double len(counts) * pyD2: the exact product of the two doubles,
correctly rounded. -/
def pyD3 (n : Nat) (percentile : Int) : Int × Nat :=
  roundD ((pyNF n).1 * (pyD2 percentile).1) (2 ^ ((pyNF n).2 + (pyD2 percentile).2))

/-- Python int() on a dyadic value: truncation toward zero. -/
def pyTrunc (x : Int × Nat) : Int :=
  if 0 ≤ x.1 then ((x.1.toNat / 2 ^ x.2 : Nat) : Int)
  else -(((-x.1).toNat / 2 ^ x.2 : Nat) : Int)

/-- index = int(len(counts) * (1 - percentile / 100)) of filter_by_percentile,
computed exactly as the Python float pipeline computes it.  For example at
n = 5, percentile = 80 this yields 0 where the exact floor of
n * (1 - percentile/100) is 1, because 80/100 rounds up to a double slightly
above 4/5. -/
def pyPercentileIndex (n : Nat) (percentile : Int) : Int :=
  pyTrunc (pyD3 n percentile)

/-- Threshold selection of filter_by_percentile over the descending sorted
counts: counts[0] at percentile 100, zero at percentile 0, otherwise the
count at the clamped index min(index, len(counts) - 1).  The toNat on the
clamped index is harmless on the claims domain 0 <= percentile <= 100,
where the index is nonnegative (pyPercentileIndex_nonneg); the negative
indices Python would wrap around arise only for percentile > 100. -/
def thresholdOf (counts : List Nat) (percentile : Int) : Nat :=
  if percentile = 100 then counts.headD 0
  else if percentile = 0 then 0
  else
    counts.getD
      (min (pyPercentileIndex counts.length percentile) ((counts.length : Int) - 1)).toNat 0

/-- Result shape of filter_by_percentile: the statistics maps plus the
number of retained words. -/
structure FilteredStats where
  word_count : List (String × Nat)
  word_percentage : List (String × Rat)
  total_words : Nat
  filtered_words : Nat
  deriving DecidableEq

/-- Embedding of WikipediaAnalyzer.filter_by_percentile.  A word is kept when
its count is at least the threshold and it is not in the ignore list; the
percentage of a kept word is looked up in the unfiltered percentage map. -/
def filter_by_percentile (word_counter : List (String × Nat)) (percentile : Int)
    (ignore_list : List String) : FilteredStats :=
  let stats := calculate_statistics word_counter
  if stats.word_count.isEmpty then
    ⟨stats.word_count, stats.word_percentage, stats.total_words, 0⟩
  else
    let threshold := thresholdOf (countsDesc stats.word_count) percentile
    let filtered_count := stats.word_count.filter
      (fun p => decide (threshold ≤ p.2) && !(List.contains ignore_list p.1))
    ⟨filtered_count,
     filtered_count.map (fun p => (p.1, (List.lookup p.1 stats.word_percentage).getD 0)),
     stats.total_words,
     filtered_count.length⟩

/-! ### Crawl engine -/

/-- One increment of collections.Counter.update for a single word: bump the
count of an existing key, or append the key with count 1. -/
def bump : List (String × Nat) → String → List (String × Nat)
  | [], w => [(w, 1)]
  | (k, c) :: rest, w => if k = w then (k, c + 1) :: rest else (k, c) :: bump rest w

/-- Embedding of self.word_counter.update(words). -/
def counterUpdate (counter : List (String × Nat)) (words : List String) :
    List (String × Nat) :=
  words.foldl bump counter

/-- Environment of collaborator-backed operations used by crawl: the value
fetch_article returns for a title, and the BeautifulSoup-backed text and link
extraction (pure oracles at the model boundary). -/
structure CrawlEnv where
  fetch : String → String
  extract_text : String → String
  extract_links : String → List String

/-- Mutable state of one WikipediaAnalyzer instance during a crawl, plus an
observation trace: fetched records, in order, every title passed to the
fetcher, so that "performs no fetch" is directly statable. -/
structure CrawlState where
  visited : List String
  word_counter : List (String × Nat)
  fetched : List String
  deriving DecidableEq

/-- Embedding of WikipediaAnalyzer.crawl, driven by fuel.  Each level:
return unchanged when the normalized title is already visited, or when
current_depth > depth; otherwise mark visited (a set add under the
not-member guard, hence a plain cons), fetch, stop the branch on empty
content, otherwise tokenize the extracted text into the accumulator and,
when current_depth < depth, recurse sequentially into the first 3 extracted
links (the loop for link in links[:3] unrolled over the at most three
elements of links.take 3). -/
def crawlFuel (env : CrawlEnv) : Nat → CrawlState → String → Nat → Nat → CrawlState
  | 0, σ, _, _, _ => σ
  | fuel + 1, σ, article, current_depth, depth =>
    if normalize_title article ∈ σ.visited then σ
    else if depth < current_depth then σ
    else
      let σ1 : CrawlState :=
        ⟨normalize_title article :: σ.visited, σ.word_counter, σ.fetched ++ [article]⟩
      if env.fetch article = "" then σ1
      else
        let σ2 : CrawlState :=
          ⟨σ1.visited,
           counterUpdate σ1.word_counter
             (tokenize_text (env.extract_text (env.fetch article))),
           σ1.fetched⟩
        if current_depth < depth then
          match (env.extract_links (env.fetch article)).take 3 with
          | [] => σ2
          | [link1] => crawlFuel env fuel σ2 link1 (current_depth + 1) depth
          | [link1, link2] =>
            crawlFuel env fuel (crawlFuel env fuel σ2 link1 (current_depth + 1) depth)
              link2 (current_depth + 1) depth
          | link1 :: link2 :: link3 :: _ =>
            crawlFuel env fuel
              (crawlFuel env fuel
                (crawlFuel env fuel σ2 link1 (current_depth + 1) depth)
                link2 (current_depth + 1) depth)
              link3 (current_depth + 1) depth
        else σ2

/-- Embedding of crawl(article, current_depth, depth).  The fuel value
depth + 1 - current_depth is exactly the number of recursion levels the
Python code can perform: recursion only happens while current_depth < depth
and each call increments current_depth. -/
def crawl (env : CrawlEnv) (σ : CrawlState) (article : String)
    (current_depth depth : Nat) : CrawlState :=
  crawlFuel env (depth + 1 - current_depth) σ article current_depth depth

/-- A minimal concrete environment: every fetch fails (returns the empty
string), extraction is trivial. -/
def envEmptyFetch : CrawlEnv :=
  ⟨fun _ => "", fun t => t, fun _ => []⟩

/-- The initial state of a freshly constructed WikipediaAnalyzer. -/
def initialState : CrawlState := ⟨[], [], []⟩

/-- Response oracle where every attempt yields HTTP 404. -/
def always404 : Nat → FetchResp := fun _ => .status 404

/-- Response oracle where every attempt yields HTTP 200 with body x. -/
def always200 : Nat → FetchResp := fun _ => .ok "x"

/-! ### Lemmas about the crawl engine -/

/-- If the normalized title is already visited, crawlFuel is the identity on
the state, for any fuel. -/
theorem crawlFuel_visited_noop (env : CrawlEnv) (fuel : Nat) (σ : CrawlState)
    (article : String) (current_depth depth : Nat)
    (h : normalize_title article ∈ σ.visited) :
    crawlFuel env fuel σ article current_depth depth = σ := by
  cases fuel with
  | zero => rfl
  | succ fuel => simp [crawlFuel, h]

/-- The visited set only grows: any identifier visited before a call to
crawlFuel is still visited afterwards. -/
theorem crawlFuel_visited_mono (env : CrawlEnv) :
    ∀ (fuel : Nat) (σ : CrawlState) (article : String) (current_depth depth : Nat)
      (x : String), x ∈ σ.visited →
      x ∈ (crawlFuel env fuel σ article current_depth depth).visited := by
  intro fuel
  induction fuel with
  | zero => intro σ a cd d x hx; exact hx
  | succ fuel ih =>
    intro σ a cd d x hx
    simp only [crawlFuel]
    split
    · exact hx
    · split
      · exact hx
      · split
        · exact List.mem_cons_of_mem _ hx
        · split
          · split
            · exact List.mem_cons_of_mem _ hx
            · exact ih _ _ _ _ _ (List.mem_cons_of_mem _ hx)
            · exact ih _ _ _ _ _ (ih _ _ _ _ _ (List.mem_cons_of_mem _ hx))
            · exact ih _ _ _ _ _ (ih _ _ _ _ _ (ih _ _ _ _ _ (List.mem_cons_of_mem _ hx)))
          · exact List.mem_cons_of_mem _ hx

/-- crawlFuel preserves the set semantics of the visited list: no duplicates
are ever introduced, because an identifier is only consed after the explicit
membership test failed. -/
theorem crawlFuel_visited_nodup (env : CrawlEnv) :
    ∀ (fuel : Nat) (σ : CrawlState) (article : String) (current_depth depth : Nat),
      σ.visited.Nodup → (crawlFuel env fuel σ article current_depth depth).visited.Nodup := by
  intro fuel
  induction fuel with
  | zero => intro σ a cd d h; exact h
  | succ fuel ih =>
    intro σ a cd d h
    simp only [crawlFuel]
    split
    · exact h
    · next hmem =>
      split
      · exact h
      · have h1 : (normalize_title a :: σ.visited).Nodup := List.nodup_cons.mpr ⟨hmem, h⟩
        split
        · exact h1
        · split
          · split
            · exact h1
            · exact ih _ _ _ _ h1
            · exact ih _ _ _ _ (ih _ _ _ _ h1)
            · exact ih _ _ _ _ (ih _ _ _ _ (ih _ _ _ _ h1))
          · exact h1

/-! ### Claim C2 -/

/-- C2 (code bug exhibited): the final return of the empty string in
fetch_article is indented inside the retry loop body, so every path through
the first iteration returns and attempts 2 and 3 are unreachable.  On the
scenario whose first attempt is a transient HTTP 500 and whose second attempt
would be HTTP 200 with body "body", the code returns the empty string after a
single attempt, while the documented 3-attempt retry semantics
(fetch_article_spec) returns "body".  The 404 and 200 behaviors stated by the
claim do hold, on both models. -/
theorem fetch_article_no_retry_bug :
    retryScenario 0 = FetchResp.status 500 ∧
    retryScenario 1 = FetchResp.ok "body" ∧
    fetch_article retryScenario = some "" ∧
    fetch_article_spec retryScenario = "body" ∧
    fetch_article always404 = some "" ∧
    fetch_article_spec always404 = "" ∧
    fetch_article always200 = some "x" ∧
    fetch_article_spec always200 = "x" := by decide

/-! ### Claim C5 -/

/-- C5: for every article identifier whose normalized form is already in the
visited set, crawl is a no-op: the state (visited set, frequency accumulator,
and the trace of fetched titles, so in particular no fetch happens) is
returned unchanged, for every environment. -/
theorem crawl_visited_noop (env : CrawlEnv) (σ : CrawlState) (article : String)
    (current_depth depth : Nat) (h : normalize_title article ∈ σ.visited) :
    crawl env σ article current_depth depth = σ :=
  crawlFuel_visited_noop env _ σ article current_depth depth h

/-- Witness for C5 at a concrete input. -/
theorem crawl_visited_noop_witness :
    normalize_title "A" ∈ (CrawlState.mk ["a"] [] []).visited ∧
    crawl envEmptyFetch ⟨["a"], [], []⟩ "A" 0 1 = ⟨["a"], [], []⟩ :=
  ⟨by decide, crawl_visited_noop envEmptyFetch ⟨["a"], [], []⟩ "A" 0 1 (by decide)⟩

/-! ### Claim C6 -/

/-- C6: for an article not yet visited, a call with current_depth > depth
returns immediately: the normalized identifier is not added to the visited
set, nothing is fetched, and the accumulator is unchanged — the whole state
is returned as is. -/
theorem crawl_depth_exhausted_noop (env : CrawlEnv) (σ : CrawlState) (article : String)
    (current_depth depth : Nat) (h1 : normalize_title article ∉ σ.visited)
    (h2 : depth < current_depth) :
    crawl env σ article current_depth depth = σ := by
  unfold crawl
  have hf : depth + 1 - current_depth = 0 := by omega
  rw [hf]
  rfl

/-- Witness for C6 at a concrete input. -/
theorem crawl_depth_exhausted_noop_witness :
    normalize_title "A" ∉ (CrawlState.mk [] [] []).visited ∧
    (1 : Nat) < 2 ∧
    crawl envEmptyFetch ⟨[], [], []⟩ "A" 2 1 = ⟨[], [], []⟩ :=
  ⟨by decide, by decide, crawl_depth_exhausted_noop envEmptyFetch ⟨[], [], []⟩ "A" 2 1
    (by decide) (by decide)⟩

/-! ### Claim C1 -/

/-- C1 counterexample: in an environment where every fetch fails (returns the
empty string), crawling a fresh article leaves its normalized identifier in
the visited set even though its content was never fetched successfully —
refuting the claim that an article whose fetch_article result is empty is not
in visited_articles afterwards. -/
theorem crawl_visited_after_failed_fetch_counterexample :
    envEmptyFetch.fetch "A" = "" ∧
    normalize_title "A" ∈ (crawl envEmptyFetch initialState "A" 0 1).visited := by decide

/-- C1 amended: crawl marks the normalized identifier as visited before
fetching, so after processing an unvisited, within-depth article the
identifier is in the visited set whether or not the fetch succeeded; the
visited set still never contains duplicates (set semantics). -/
theorem crawl_marks_visited_before_fetch (env : CrawlEnv) (σ : CrawlState)
    (article : String) (current_depth depth : Nat)
    (h1 : normalize_title article ∉ σ.visited) (h2 : current_depth ≤ depth)
    (h3 : σ.visited.Nodup) :
    normalize_title article ∈ (crawl env σ article current_depth depth).visited ∧
    (crawl env σ article current_depth depth).visited.Nodup := by
  unfold crawl
  have hf : depth + 1 - current_depth = (depth - current_depth) + 1 := by omega
  rw [hf]
  have hd : ¬ depth < current_depth := by omega
  constructor
  · simp only [crawlFuel]
    rw [if_neg h1, if_neg hd]
    split
    · exact List.mem_cons_self _ _
    · split
      · split
        · exact List.mem_cons_self _ _
        · exact crawlFuel_visited_mono env _ _ _ _ _ _ (List.mem_cons_self _ _)
        · exact crawlFuel_visited_mono env _ _ _ _ _ _
            (crawlFuel_visited_mono env _ _ _ _ _ _ (List.mem_cons_self _ _))
        · exact crawlFuel_visited_mono env _ _ _ _ _ _
            (crawlFuel_visited_mono env _ _ _ _ _ _
              (crawlFuel_visited_mono env _ _ _ _ _ _ (List.mem_cons_self _ _)))
      · exact List.mem_cons_self _ _
  · exact crawlFuel_visited_nodup env _ σ article current_depth depth h3

/-- Witness for the amended C1 at a concrete input: the fetch of the single
processed article fails, yet its normalized identifier is visited afterwards
and the visited set is still duplicate-free. -/
theorem crawl_marks_visited_before_fetch_witness :
    normalize_title "A" ∉ (WordFreq.initialState).visited ∧
    normalize_title "A" ∈ (crawl envEmptyFetch initialState "A" 0 1).visited ∧
    (crawl envEmptyFetch initialState "A" 0 1).visited.Nodup :=
  ⟨by decide,
   (crawl_marks_visited_before_fetch envEmptyFetch initialState "A" 0 1 (by decide)
     (by decide) (by decide)).1,
   (crawl_marks_visited_before_fetch envEmptyFetch initialState "A" 0 1 (by decide)
     (by decide) (by decide)).2⟩

/-! ### Lemmas about the statistics engine -/

/-- Summing the percentage values count / T * 100 over an association list
gives (sum of counts) / T * 100. -/
theorem sum_map_pct (l : List (String × Nat)) (T : Rat) :
    (l.map (fun p => ((p.2 : Rat) / T) * 100)).sum =
      (((l.map (·.2)).sum : Nat) : Rat) / T * 100 := by
  induction l with
  | nil => simp
  | cons p l ih =>
    simp only [List.map_cons, List.sum_cons, ih]
    push_cast
    ring

/-- A nonempty accumulator with positive counts has a nonzero total. -/
theorem total_ne_zero (acc : List (String × Nat)) (hne : acc ≠ [])
    (hpos : ∀ p ∈ acc, 0 < p.2) : (acc.map (·.2)).sum ≠ 0 := by
  cases acc with
  | nil => exact absurd rfl hne
  | cons p l =>
    have hp := hpos p (List.mem_cons_self p l)
    simp only [List.map_cons, List.sum_cons]
    omega

/-! ### Claim C4 -/

/-- C4: calculate_statistics returns the sum of all counts as total_words;
when the total is nonzero, word_count is a direct copy of the accumulator and
word_percentage maps each word to count / total * 100; when the total is
zero it returns exactly the empty mappings and a zero total, never dividing
by zero. -/
theorem calculate_statistics_spec (acc : List (String × Nat)) :
    (calculate_statistics acc).total_words = (acc.map (·.2)).sum ∧
    ((acc.map (·.2)).sum ≠ 0 →
      (calculate_statistics acc).word_count = acc ∧
      (calculate_statistics acc).word_percentage =
        acc.map (fun p => (p.1, ((p.2 : Rat) / (((acc.map (·.2)).sum : Nat) : Rat)) * 100))) ∧
    ((acc.map (·.2)).sum = 0 → calculate_statistics acc = ⟨[], [], 0⟩) := by
  by_cases h : (acc.map (·.2)).sum = 0
  · refine ⟨?_, fun hc => absurd h hc, fun _ => ?_⟩ <;> simp [calculate_statistics, h]
  · exact ⟨by simp [calculate_statistics, h], fun _ => ⟨by simp [calculate_statistics, h],
      by simp [calculate_statistics, h]⟩, fun hc => absurd hc h⟩

/-- Witness for C4 at a concrete accumulator. -/
theorem calculate_statistics_spec_witness :
    (calculate_statistics [("a", 2)]).total_words = ([(("a" : String), (2 : Nat))].map (·.2)).sum :=
  (calculate_statistics_spec [("a", 2)]).1

/-! ### Claim C8 -/

/-- C8: for every nonempty accumulator (all counts positive, as the crawl
engine maintains), the percentage values of calculate_statistics sum to 100
within the stated tolerance of 1/100 — in the exact rational model the sum is
exactly 100. -/
theorem percentages_sum_to_100 (acc : List (String × Nat)) (hne : acc ≠ [])
    (hpos : ∀ p ∈ acc, 0 < p.2) :
    |((calculate_statistics acc).word_percentage.map Prod.snd).sum - 100| ≤ 1 / 100 := by
  have htot := total_ne_zero acc hne hpos
  have hsum : ((calculate_statistics acc).word_percentage.map Prod.snd).sum = 100 := by
    simp only [calculate_statistics, if_neg htot, List.map_map]
    have hcomp :
        (Prod.snd ∘ fun p : String × Nat => (p.1, ((p.2 : Rat) / (((acc.map (·.2)).sum : Nat) : Rat)) * 100)) =
          fun p : String × Nat => ((p.2 : Rat) / (((acc.map (·.2)).sum : Nat) : Rat)) * 100 := rfl
    rw [hcomp, sum_map_pct]
    rw [div_self (by exact_mod_cast htot)]
    norm_num
  rw [hsum]
  norm_num

/-- Witness for C8 at a concrete accumulator. -/
theorem percentages_sum_to_100_witness :
    |((calculate_statistics [("a", 2), ("b", 1)]).word_percentage.map Prod.snd).sum - 100| ≤
      1 / 100 :=
  percentages_sum_to_100 [("a", 2), ("b", 1)] (by decide) (by decide)

/-! ### Lemmas about the percentile filter -/

/-- The round-to-nearest of n / d cannot exceed M when n ≤ d * M. -/
theorem rne_le (n d M : Nat) (hd : 1 ≤ d) (h : n ≤ d * M) : rne n d ≤ M := by
  have hdm := Nat.div_add_mod n d
  have hr : n % d < d := Nat.mod_lt n hd
  have hq : d * (n / d) ≤ d * M := by omega
  have hqM : n / d ≤ M := Nat.le_of_mul_le_mul_left hq (by omega)
  unfold rne
  split_ifs with h1 h2 h3
  · exact hqM
  · have hstrict : d * (n / d) < d * M := by omega
    have := Nat.lt_of_mul_lt_mul_left hstrict
    omega
  · exact hqM
  · have hstrict : d * (n / d) < d * M := by omega
    have := Nat.lt_of_mul_lt_mul_left hstrict
    omega

/-- The round-to-nearest of a / D is zero when 2a ≤ D (ties go to the even
integer 0). -/
theorem rne_eq_zero (a D : Nat) (h : 2 * a ≤ D) : rne a D = 0 := by
  rcases Nat.eq_zero_or_pos a with ha | ha
  · subst ha
    unfold rne
    rw [Nat.zero_mod, Nat.zero_div]
    split_ifs <;> omega
  · have hlt : a < D := by omega
    unfold rne
    rw [Nat.div_eq_of_lt hlt, Nat.mod_eq_of_lt hlt]
    split_ifs <;> omega

/-- The mantissa of a rounded fraction a / b with a ≤ b never exceeds the
power of two of its dyadic denominator: the rounded value is at most 1. -/
theorem roundPosD_le_pow (a b : Nat) (hb : 1 ≤ b) (hab : a ≤ b) :
    (roundPosD a b).1 ≤ (2 : Int) ^ (roundPosD a b).2 := by
  unfold roundPosD
  split_ifs with h0 hs
  · simp
  · -- scaling exponent is nonnegative
    have h := rne_le (a * 2 ^ (52 - floorLog2F a b).toNat) b (2 ^ (52 - floorLog2F a b).toNat)
      hb (Nat.mul_le_mul_right _ hab)
    simp only
    exact_mod_cast h
  · -- scaling exponent is negative: the rounded mantissa is zero
    have ht : 1 ≤ (-(52 - floorLog2F a b)).toNat := by omega
    have hz : rne a (b * 2 ^ (-(52 - floorLog2F a b)).toNat) = 0 := by
      apply rne_eq_zero
      have h2 : (2 : Nat) ≤ 2 ^ (-(52 - floorLog2F a b)).toNat := by
        calc (2 : Nat) = 2 ^ 1 := rfl
        _ ≤ 2 ^ (-(52 - floorLog2F a b)).toNat := Nat.pow_le_pow_right (by omega) ht
      calc 2 * a ≤ 2 * b := by omega
      _ ≤ 2 ^ (-(52 - floorLog2F a b)).toNat * b := Nat.mul_le_mul_right _ h2
      _ = b * 2 ^ (-(52 - floorLog2F a b)).toNat := Nat.mul_comm _ _
    simp only [hz]
    simp

/-- The rounded mantissa of a nonnegative fraction is nonnegative. -/
theorem roundPosD_num_nonneg (a b : Nat) : 0 ≤ (roundPosD a b).1 := by
  unfold roundPosD
  split_ifs
  · simp
  · simp only
    positivity
  · simp only
    positivity

/-- Rounding a nonnegative fraction gives a nonnegative mantissa. -/
theorem roundD_num_nonneg (n : Int) (d : Nat) (h : 0 ≤ n) : 0 ≤ (roundD n d).1 := by
  unfold roundD
  rw [if_pos h]
  exact roundPosD_num_nonneg _ _

/-- The double 1 - percentile/100 is nonnegative for percentiles in
[0, 100]: percentile/100 rounds to a double that is at most 1, so the
subtrahend numerator 2^k - num is nonnegative and so is its rounding. -/
theorem pyD2_num_nonneg (p : Int) (h0 : 0 ≤ p) (h1 : p ≤ 100) : 0 ≤ (pyD2 p).1 := by
  unfold pyD2
  apply roundD_num_nonneg
  unfold pyD1 roundD
  rw [if_pos h0]
  have hle := roundPosD_le_pow p.toNat 100 (by norm_num) (by omega)
  omega

/-- For percentiles in [0, 100] the float-computed index is nonnegative:
every intermediate double in the pipeline is nonnegative, and truncation
toward zero preserves that. -/
theorem pyPercentileIndex_nonneg (n : Nat) (p : Int) (h0 : 0 ≤ p) (h1 : p ≤ 100) :
    0 ≤ pyPercentileIndex n p := by
  unfold pyPercentileIndex pyTrunc
  have h3 : 0 ≤ (pyD3 n p).1 := by
    unfold pyD3
    apply roundD_num_nonneg
    have hnf : 0 ≤ (pyNF n).1 := by
      unfold pyNF
      exact roundD_num_nonneg _ _ (by positivity)
    exact mul_nonneg hnf (pyD2_num_nonneg p h0 h1)
  rw [if_pos h3]
  positivity

/-- The descending sort keeps the length of the counts list. -/
theorem countsDesc_length (wc : List (String × Nat)) :
    (countsDesc wc).length = wc.length := by
  simp [countsDesc]

/-- The descending sort is sorted for the relation greater-or-equal. -/
theorem countsDesc_sorted (wc : List (String × Nat)) :
    List.Sorted (fun a b : Nat => a ≥ b) (countsDesc wc) := by
  haveI h1 : IsTotal Nat (fun a b : Nat => a ≥ b) := ⟨fun a b => le_total b a⟩
  haveI h2 : IsTrans Nat (fun a b : Nat => a ≥ b) := ⟨fun a b c hab hbc => le_trans hbc hab⟩
  exact List.sorted_insertionSort _ _

/-- Looking a key up in the image of an association list with duplicate-free
keys finds the image of its entry. -/
theorem lookup_map_of_nodup {β : Type} (f : String × Nat → β) :
    ∀ (l : List (String × Nat)), (l.map (·.1)).Nodup →
      ∀ p ∈ l, List.lookup p.1 (l.map (fun q => (q.1, f q))) = some (f p) := by
  intro l
  induction l with
  | nil => intro _ p hp; simp at hp
  | cons q l ih =>
    intro hnd p hp
    simp only [List.map_cons] at hnd ⊢
    rcases List.mem_cons.mp hp with rfl | hpl
    · rw [List.lookup_cons]
      simp
    · have hnd' := List.nodup_cons.mp hnd
      have hne : (p.1 == q.1) = false := by
        refine beq_eq_false_iff_ne.mpr ?_
        intro he
        exact hnd'.1 (he ▸ List.mem_map_of_mem (·.1) hpl)
      rw [List.lookup_cons, hne]
      exact ih hnd'.2 p hpl

/-- Unfolding of filter_by_percentile in the nonempty case (nonzero total):
word_count is the filtered copy of the accumulator, word_percentage the
lookup image of the filtered copy, the total is passed through and
filtered_words is the length of the filtered copy. -/
theorem filter_by_percentile_eq (acc : List (String × Nat)) (percentile : Int)
    (ignore_list : List String) (htot : (acc.map (·.2)).sum ≠ 0) :
    filter_by_percentile acc percentile ignore_list =
      ⟨acc.filter (fun p => decide (thresholdOf (countsDesc acc) percentile ≤ p.2) &&
          !(List.contains ignore_list p.1)),
       (acc.filter (fun p => decide (thresholdOf (countsDesc acc) percentile ≤ p.2) &&
          !(List.contains ignore_list p.1))).map
         (fun p => (p.1, (List.lookup p.1 (calculate_statistics acc).word_percentage).getD 0)),
       (calculate_statistics acc).total_words,
       (acc.filter (fun p => decide (thresholdOf (countsDesc acc) percentile ≤ p.2) &&
          !(List.contains ignore_list p.1))).length⟩ := by
  have hwc : (calculate_statistics acc).word_count = acc := by
    simp [calculate_statistics, htot]
  have hne : acc ≠ [] := by
    intro h
    rw [h] at htot
    exact htot rfl
  simp only [filter_by_percentile, hwc]
  rw [if_neg (by simp [hne])]

/-! ### Claim C9 -/

/-- C9: for a nonempty accumulator and an integer percentile strictly between
0 and 100, the index the program computes in float arithmetic
(pyPercentileIndex), after the min-clamp against len(counts) - 1, lies
within [0, N-1] — nonnegativity comes from the percentile bounds through
the float pipeline, the upper bound from the clamp — and in particular the
position read from the descending-sorted counts list is always in bounds,
so the out-of-range branch of the indexing operation is unreachable. -/
theorem clamped_index_in_bounds (acc : List (String × Nat)) (percentile : Int)
    (hne : acc ≠ []) (hp0 : 0 < percentile) (hp100 : percentile < 100) :
    0 ≤ min (pyPercentileIndex (countsDesc acc).length percentile)
        (((countsDesc acc).length : Int) - 1) ∧
    min (pyPercentileIndex (countsDesc acc).length percentile)
        (((countsDesc acc).length : Int) - 1) ≤ ((countsDesc acc).length : Int) - 1 ∧
    (min (pyPercentileIndex (countsDesc acc).length percentile)
        (((countsDesc acc).length : Int) - 1)).toNat < (countsDesc acc).length := by
  have hlen : (countsDesc acc).length = acc.length := countsDesc_length acc
  have hpos : 0 < acc.length := List.length_pos.mpr hne
  have hnn := pyPercentileIndex_nonneg (countsDesc acc).length percentile
    (by omega) (by omega)
  have hmin := min_le_right (pyPercentileIndex (countsDesc acc).length percentile)
    (((countsDesc acc).length : Int) - 1)
  refine ⟨le_min hnn (by omega), hmin, by omega⟩

/-- Witness for C9 at a concrete input. -/
theorem clamped_index_in_bounds_witness :
    (min (pyPercentileIndex (countsDesc [("a", 2), ("b", 1)]).length 50)
      (((countsDesc [("a", 2), ("b", 1)]).length : Int) - 1)).toNat <
      (countsDesc [("a", 2), ("b", 1)]).length :=
  (clamped_index_in_bounds [("a", 2), ("b", 1)] 50 (by decide) (by decide) (by decide)).2.2

/-! ### Claim C3 -/

/-- A concrete accumulator with five distinct words and strictly decreasing
counts, on which the float-computed index and the exact floor index select
different counts at percentile 80. -/
def acc5 : List (String × Nat) :=
  [("a", 5), ("b", 4), ("c", 3), ("d", 2), ("e", 1)]

/-- C3 counterexample: at percentile 80 on five distinct counts, the program
threshold (thresholdOf, computed with the bit-exact float index: 80/100
rounds up, so 5 * (1 - 0.8) rounds to just below 1 and int() gives index 0)
is the count 5 at index 0, while the count at the exact-floor clamped index
min(floor(5 * (1 - 80/100)), 4) = 1 claimed for the program is 4 — so the
claimed threshold formula is false of the program. -/
theorem float_index_counterexample :
    thresholdOf (countsDesc acc5) 80 = 5 ∧
    (countsDesc acc5).getD
      (min ((⌊((countsDesc acc5).length : Rat) * (1 - (80 : Rat) / 100)⌋).toNat)
        ((countsDesc acc5).length - 1)) 0 = 4 := by
  constructor
  · decide
  · have hl : (countsDesc acc5).length = 5 := by decide
    rw [hl]
    have h1 : (((5 : Nat) : Rat)) * (1 - (80 : Rat) / 100) = 1 := by norm_num
    rw [h1]
    have h2 : (⌊(1 : Rat)⌋) = (1 : Int) := Int.floor_one
    rw [h2]
    decide

/-- C3 as amended: threshold selection and retention of filter_by_percentile
on a nonempty accumulator with positive counts.  A word is retained exactly
when its count reaches the threshold and it is not excluded; for a
percentile strictly between 0 and 100 the threshold is the count of the
descending-sorted counts at the index the program computes in IEEE double
arithmetic — int(len(counts) * (1 - percentile/100)), modelled bit-exactly
by pyPercentileIndex, which can be one less than the exact floor — clamped
against len(counts) - 1; for percentile 100 the threshold is the maximum
count; for percentile 0 the threshold is 0 (so every word passes the
threshold test and exactly the non-excluded distinct words are retained). -/
theorem filter_retention_and_threshold (acc : List (String × Nat)) (percentile : Int)
    (ignore_list : List String) (hne : acc ≠ []) (hpos : ∀ p ∈ acc, 0 < p.2) :
    (∀ w c, (w, c) ∈ (filter_by_percentile acc percentile ignore_list).word_count ↔
      ((w, c) ∈ acc ∧ thresholdOf (countsDesc acc) percentile ≤ c ∧ w ∉ ignore_list)) ∧
    (0 < percentile → percentile < 100 →
      thresholdOf (countsDesc acc) percentile =
        (countsDesc acc).getD
          (min (pyPercentileIndex (countsDesc acc).length percentile)
            (((countsDesc acc).length : Int) - 1)).toNat 0) ∧
    (percentile = 100 →
      thresholdOf (countsDesc acc) percentile ∈ acc.map (·.2) ∧
      ∀ y ∈ acc.map (·.2), y ≤ thresholdOf (countsDesc acc) percentile) ∧
    (percentile = 0 → thresholdOf (countsDesc acc) percentile = 0) := by
  have htot := total_ne_zero acc hne hpos
  refine ⟨?_, ?_, ?_, ?_⟩
  · intro w c
    rw [filter_by_percentile_eq acc percentile ignore_list htot]
    simp [List.mem_filter, List.contains, and_assoc]
  · intro hp0 hp100
    have h100 : ¬ percentile = 100 := by omega
    have h0 : ¬ percentile = 0 := by omega
    simp only [thresholdOf, if_neg h100, if_neg h0]
  · rintro rfl
    have hth : thresholdOf (countsDesc acc) 100 = (countsDesc acc).headD 0 := by
      simp [thresholdOf]
    rw [hth]
    have hlen : (countsDesc acc).length = acc.length := countsDesc_length acc
    have hperm := List.perm_insertionSort (fun a b : Nat => a ≥ b) (acc.map (·.2))
    have hsorted := countsDesc_sorted acc
    rcases hcd : countsDesc acc with _ | ⟨c, t⟩
    · exfalso
      rw [hcd] at hlen
      exact hne (List.length_eq_zero.mp hlen.symm)
    · rw [hcd] at hsorted
      have hmemc : c ∈ acc.map (·.2) := by
        refine hperm.mem_iff.mp ?_
        show c ∈ countsDesc acc
        rw [hcd]
        exact List.mem_cons_self c t
      constructor
      · simpa using hmemc
      · intro y hy
        have hyc : y ∈ countsDesc acc := by
          show y ∈ countsDesc acc
          exact hperm.mem_iff.mpr hy
        rw [hcd] at hyc
        rcases List.mem_cons.mp hyc with rfl | hyt
        · simp
        · simpa using List.rel_of_sorted_cons hsorted y hyt
  · rintro rfl
    simp [thresholdOf]

/-- Witness for C3 at a concrete input: at percentile 0 the threshold is 0. -/
theorem filter_retention_and_threshold_witness :
    ((("a", (2 : Nat)) :: [("b", 1)]) ≠ []) ∧
    thresholdOf (countsDesc (("a", 2) :: [("b", 1)])) 0 = 0 :=
  ⟨by decide,
   (filter_retention_and_threshold (("a", 2) :: [("b", 1)]) 0 [] (by decide)
     (by decide)).2.2.2 rfl⟩

/-! ### Claim C10 -/

/-- C10: internal consistency of a filter_by_percentile result: the
percentage map has exactly the keys of the count map (same order, even),
every retained percentage entry is an entry of the unfiltered percentage
map, filtered_words is the number of entries of the filtered count map, and
the total is the unfiltered total. -/
theorem filter_by_percentile_consistent (acc : List (String × Nat)) (percentile : Int)
    (ignore_list : List String) (hnd : (acc.map (·.1)).Nodup) :
    ((filter_by_percentile acc percentile ignore_list).word_percentage.map Prod.fst =
      (filter_by_percentile acc percentile ignore_list).word_count.map Prod.fst) ∧
    (∀ w q, (w, q) ∈ (filter_by_percentile acc percentile ignore_list).word_percentage →
      (w, q) ∈ (calculate_statistics acc).word_percentage) ∧
    ((filter_by_percentile acc percentile ignore_list).filtered_words =
      (filter_by_percentile acc percentile ignore_list).word_count.length) ∧
    ((filter_by_percentile acc percentile ignore_list).total_words =
      (calculate_statistics acc).total_words) := by
  by_cases htot : (acc.map (·.2)).sum = 0
  · have hstats : calculate_statistics acc = ⟨[], [], 0⟩ := by
      simp [calculate_statistics, htot]
    simp [filter_by_percentile, hstats]
  · have hpct : (calculate_statistics acc).word_percentage =
        acc.map (fun q => (q.1, ((q.2 : Rat) / (((acc.map (·.2)).sum : Nat) : Rat)) * 100)) := by
      simp [calculate_statistics, htot]
    rw [filter_by_percentile_eq acc percentile ignore_list htot]
    refine ⟨by simp [List.map_map], ?_, rfl, rfl⟩
    intro w q hq
    simp only at hq
    obtain ⟨p, hpfil, heq⟩ := List.mem_map.mp hq
    have hpacc : p ∈ acc := (List.mem_filter.mp hpfil).1
    have hlook := lookup_map_of_nodup
      (fun q => ((q.2 : Rat) / (((acc.map (·.2)).sum : Nat) : Rat)) * 100) acc hnd p hpacc
    rw [hpct] at heq ⊢
    rw [hlook] at heq
    rw [← heq]
    exact List.mem_map_of_mem _ hpacc

/-- Witness for C10 at a concrete input. -/
theorem filter_by_percentile_consistent_witness :
    (filter_by_percentile [("a", 2), ("b", 1)] 50 ["b"]).filtered_words =
      (filter_by_percentile [("a", 2), ("b", 1)] 50 ["b"]).word_count.length :=
  (filter_by_percentile_consistent [("a", 2), ("b", 1)] 50 ["b"] (by decide)).2.2.1

/-! ### Claim C7 -/

/-- The group part of the token pattern: a (possibly empty) concatenation of
groups, each an apostrophe followed by a nonempty run of lowercase
letters. -/
inductive MatchesGroups : List Char → Prop
  | nil : MatchesGroups []
  | cons (run rest : List Char) : run ≠ [] → (∀ c ∈ run, isLowerAlpha c = true) →
      MatchesGroups rest → MatchesGroups (apos :: (run ++ rest))

/-- A character list matches the token pattern exactly when it is a nonempty
run of token characters [a-z0-9] followed by apostrophe groups. -/
def MatchesToken (l : List Char) : Prop :=
  ∃ run rest, l = run ++ rest ∧ run ≠ [] ∧ (∀ c ∈ run, isTokChar c = true) ∧
    MatchesGroups rest

/-- The consumed part of munchGroups always matches the group pattern. -/
theorem munchGroups_matches :
    ∀ (fuel : Nat) (l : List Char), MatchesGroups (munchGroups fuel l).1 := by
  intro fuel
  induction fuel with
  | zero => intro l; exact .nil
  | succ fuel ih =>
    intro l
    match l with
    | [] => exact .nil
    | c :: rest =>
      simp only [munchGroups]
      split
      · next hc =>
        split
        · exact .nil
        · next hrun =>
          subst hc
          refine MatchesGroups.cons _ _ ?_ (fun x hx => List.mem_takeWhile_imp hx) (ih _)
          simpa [List.isEmpty_iff] using hrun
      · exact .nil

/-- Every token produced by the scanner matches the token pattern. -/
theorem scanTokens_matches :
    ∀ (fuel : Nat) (l : List Char) (t : List Char), t ∈ scanTokens fuel l →
      MatchesToken t := by
  intro fuel
  induction fuel with
  | zero => intro l t h; simp [scanTokens] at h
  | succ fuel ih =>
    intro l t h
    match l with
    | [] => simp [scanTokens] at h
    | c :: rest =>
      simp only [scanTokens] at h
      split at h
      · next hc =>
        rcases List.mem_cons.mp h with rfl | h2
        · refine ⟨(c :: rest).takeWhile isTokChar,
            (munchGroups ((c :: rest).dropWhile isTokChar).length
              ((c :: rest).dropWhile isTokChar)).1, rfl, ?_, ?_, munchGroups_matches _ _⟩
          · simp [List.takeWhile_cons_of_pos hc]
          · intro x hx
            exact List.mem_takeWhile_imp hx
        · exact ih _ _ h2
      · exact ih _ _ h

/-- Declarative specification of re.findall for the token pattern,
independent of the scanner: the related token sequence is the ordered
sequence of maximal matching runs of the input.  A position where no
nonempty prefix matches the pattern is a separator: its character is
discarded and the scan resumes one position later (skip).  Where some
prefix matches, the emitted token is a matching prefix no shorter than any
matching prefix at that position, and the scan resumes after it (tok).
For this pattern the leftmost-longest reading and the greedy regex scan
agree, since nothing follows the final star of the pattern. -/
inductive Findall : List Char → List (List Char) → Prop where
  | nil : Findall [] []
  | skip (c : Char) (l : List Char) (ts : List (List Char)) :
      (∀ t, t ≠ [] → t <+: (c :: l) → ¬ MatchesToken t) →
      Findall l ts → Findall (c :: l) ts
  | tok (l t rest : List Char) (ts : List (List Char)) :
      l = t ++ rest → t ≠ [] → MatchesToken t →
      (∀ u, u <+: l → MatchesToken u → u.length ≤ t.length) →
      Findall rest ts → Findall l (t :: ts)

/-- Appending commutes with takeWhile when every element of the first part
satisfies the predicate. -/
theorem takeWhile_append_of_all (p : Char → Bool) :
    ∀ (u v : List Char), (∀ x ∈ u, p x = true) →
      (u ++ v).takeWhile p = u ++ v.takeWhile p := by
  intro u
  induction u with
  | nil => intro v _; simp
  | cons a u ih =>
    intro v h
    have ha : p a = true := h a (List.mem_cons_self _ _)
    simp only [List.cons_append, List.takeWhile_cons_of_pos ha]
    rw [ih v (fun x hx => h x (List.mem_cons_of_mem _ hx))]

/-- A prefix all of whose elements satisfy the predicate is a prefix of the
takeWhile part. -/
theorem prefix_takeWhile (p : Char → Bool) :
    ∀ (u l : List Char), u <+: l → (∀ x ∈ u, p x = true) → u <+: l.takeWhile p := by
  intro u
  induction u with
  | nil => intro l _ _; exact List.nil_prefix
  | cons a u ih =>
    intro l hu hall
    cases l with
    | nil => simp at hu
    | cons b l₂ =>
      obtain ⟨hab, hu2⟩ := List.cons_prefix_cons.mp hu
      subst hab
      rw [List.takeWhile_cons_of_pos (hall a (List.mem_cons_self _ _))]
      exact List.cons_prefix_cons.mpr
        ⟨rfl, ih l₂ hu2 (fun x hx => hall x (List.mem_cons_of_mem _ hx))⟩

/-- Prefix relations cancel a common front part. -/
theorem prefix_append_cancel :
    ∀ (u v w : List Char), u ++ v <+: u ++ w → v <+: w := by
  intro u
  induction u with
  | nil => intro v w h; simpa using h
  | cons a u ih =>
    intro v w h
    simp only [List.cons_append] at h
    exact ih v w (List.cons_prefix_cons.mp h).2

/-- The two components of munchGroups always reassemble the input. -/
theorem munchGroups_append :
    ∀ (fuel : Nat) (l : List Char),
      (munchGroups fuel l).1 ++ (munchGroups fuel l).2 = l := by
  intro fuel
  induction fuel with
  | zero => intro l; rfl
  | succ fuel ih =>
    intro l
    match l with
    | [] => rfl
    | c :: rest =>
      simp only [munchGroups]
      split
      · next hc =>
        split
        · rfl
        · subst hc
          simp only [List.cons_append, List.append_assoc, ih]
          rw [List.takeWhile_append_dropWhile]
      · rfl

/-- A run of characters satisfying p that is strictly shorter than the
maximal p-run of l cannot be followed by an apostrophe inside l when p
rejects the apostrophe. -/
theorem no_apos_after_short_run (p : Char → Bool) (hpa : p apos = false)
    (run_u X l : List Char) (hall : ∀ x ∈ run_u, p x = true)
    (hpre : run_u ++ (apos :: X) <+: l)
    (hlt : run_u.length < (l.takeWhile p).length) : False := by
  obtain ⟨s, hs⟩ := hpre
  have hl2 : l = run_u ++ (apos :: (X ++ s)) := by
    rw [← hs]
    simp
  have ht : l.takeWhile p = run_u := by
    rw [hl2, takeWhile_append_of_all p run_u _ hall,
      List.takeWhile_cons_of_neg (by simp [hpa])]
    simp
  rw [ht] at hlt
  omega

/-- Maximality of the greedy group scan: no group decomposition of a prefix
of l is longer than the part munchGroups consumes. -/
theorem munchGroups_maximal :
    ∀ (fuel : Nat) (l u : List Char), l.length ≤ fuel → MatchesGroups u →
      u <+: l → u.length ≤ (munchGroups fuel l).1.length := by
  intro fuel
  induction fuel with
  | zero =>
    intro l u hl hm hu
    have hnil : l = [] := List.length_eq_zero.mp (Nat.le_zero.mp hl)
    subst hnil
    have hun : u = [] := List.prefix_nil.mp hu
    subst hun
    simp
  | succ fuel ih =>
    intro l u hl hm hu
    cases hm with
    | nil => simp
    | cons run_u rest_u hneu hlowu hmu =>
      cases l with
      | nil =>
        have := List.prefix_nil.mp hu
        simp at this
      | cons c l₂ =>
        obtain ⟨hac, hu2⟩ := List.cons_prefix_cons.mp hu
        subst hac
        have h1 : run_u <+: l₂.takeWhile isLowerAlpha :=
          prefix_takeWhile _ run_u l₂ ((List.prefix_append run_u rest_u).trans hu2) hlowu
        by_cases hre : (l₂.takeWhile isLowerAlpha).isEmpty = true
        · exfalso
          rw [List.isEmpty_iff.mp hre] at h1
          exact hneu (List.prefix_nil.mp h1)
        · have hmg1 : (munchGroups (fuel + 1) (apos :: l₂)).1 =
              apos :: l₂.takeWhile isLowerAlpha ++
                (munchGroups fuel (l₂.dropWhile isLowerAlpha)).1 := by
            simp [munchGroups, hre]
          rw [hmg1]
          have hlen_ru := h1.length_le
          rcases Nat.lt_or_ge run_u.length (l₂.takeWhile isLowerAlpha).length with hlt | hge
          · cases hmu with
            | nil =>
              simp only [List.length_cons, List.length_append, List.length_nil]
              omega
            | cons run2 rest2 hne2 hlow2 hm2 =>
              exact (no_apos_after_short_run isLowerAlpha (by decide) run_u
                (run2 ++ rest2) l₂ hlowu hu2 hlt).elim
          · have heq : run_u = l₂.takeWhile isLowerAlpha :=
              h1.eq_of_length (Nat.le_antisymm hlen_ru hge)
            have hdw : rest_u <+: l₂.dropWhile isLowerAlpha := by
              apply prefix_append_cancel (l₂.takeWhile isLowerAlpha)
              rw [List.takeWhile_append_dropWhile]
              exact heq ▸ hu2
            have hsplit : (l₂.takeWhile isLowerAlpha).length +
                (l₂.dropWhile isLowerAlpha).length = l₂.length := by
              rw [← List.length_append, List.takeWhile_append_dropWhile]
            have hrec := ih (l₂.dropWhile isLowerAlpha) rest_u
              (by simp only [List.length_cons] at hl; omega) hmu hdw
            have hlen_eq : run_u.length = (l₂.takeWhile isLowerAlpha).length := by
              rw [heq]
            simp only [List.length_cons, List.length_append]
            omega

/-- Maximality of the scanner token at a position that can start a match:
no matching prefix of the input is longer than the token the scanner
emits. -/
theorem scan_token_maximal (c : Char) (rest : List Char) (hc : isTokChar c = true) :
    ∀ u, u <+: (c :: rest) → MatchesToken u →
      u.length ≤ ((c :: rest).takeWhile isTokChar).length +
        (munchGroups ((c :: rest).dropWhile isTokChar).length
          ((c :: rest).dropWhile isTokChar)).1.length := by
  rintro u hu ⟨run_u, gs_u, rfl, hneu, htoku, hgsu⟩
  have h1 : run_u <+: (c :: rest).takeWhile isTokChar :=
    prefix_takeWhile _ run_u _ ((List.prefix_append run_u gs_u).trans hu) htoku
  have hlen_ru := h1.length_le
  rcases Nat.lt_or_ge run_u.length ((c :: rest).takeWhile isTokChar).length with hlt | hge
  · cases hgsu with
    | nil =>
      simp only [List.length_append, List.length_nil]
      omega
    | cons run2 rest2 hne2 hlow2 hm2 =>
      exact (no_apos_after_short_run isTokChar (by decide) run_u
        (run2 ++ rest2) (c :: rest) htoku hu hlt).elim
  · have heq : run_u = (c :: rest).takeWhile isTokChar :=
      h1.eq_of_length (Nat.le_antisymm hlen_ru hge)
    have hdw : gs_u <+: (c :: rest).dropWhile isTokChar := by
      apply prefix_append_cancel ((c :: rest).takeWhile isTokChar)
      rw [List.takeWhile_append_dropWhile]
      exact heq ▸ hu
    have hrec := munchGroups_maximal ((c :: rest).dropWhile isTokChar).length
      ((c :: rest).dropWhile isTokChar) gs_u le_rfl hgsu hdw
    have hlen_eq : run_u.length = ((c :: rest).takeWhile isTokChar).length := by
      rw [heq]
    simp only [List.length_append]
    omega

/-- One token step of the findall relation, packaged for the scanner: if the
emitted token splits the input as the maximal run plus groups and the tail
scan is related, so is the whole scan. -/
theorem findall_token_step (c : Char) (rest : List Char) (gs rem : List Char)
    (ts : List (List Char)) (hc : isTokChar c = true)
    (hgs_rem : gs ++ rem = (c :: rest).dropWhile isTokChar)
    (hgs : MatchesGroups gs)
    (hmax : ∀ u, u <+: (c :: rest) → MatchesToken u →
      u.length ≤ ((c :: rest).takeWhile isTokChar).length + gs.length)
    (hrest : Findall rem ts) :
    Findall (c :: rest) (((c :: rest).takeWhile isTokChar ++ gs) :: ts) := by
  have hdecomp : c :: rest = ((c :: rest).takeWhile isTokChar ++ gs) ++ rem := by
    rw [List.append_assoc, hgs_rem, List.takeWhile_append_dropWhile]
  refine Findall.tok _ _ rem ts hdecomp ?_ ?_ ?_ hrest
  · simp [List.takeWhile_cons_of_pos hc]
  · exact ⟨(c :: rest).takeWhile isTokChar, gs, rfl,
      by simp [List.takeWhile_cons_of_pos hc],
      fun x hx => List.mem_takeWhile_imp hx, hgs⟩
  · intro u hu hum
    have := hmax u hu hum
    simp only [List.length_append]
    omega

/-- The scanner realizes the declarative findall specification on every
input. -/
theorem scanTokens_findall :
    ∀ (fuel : Nat) (l : List Char), l.length ≤ fuel →
      Findall l (scanTokens fuel l) := by
  intro fuel
  induction fuel with
  | zero =>
    intro l hl
    have hnil : l = [] := List.length_eq_zero.mp (Nat.le_zero.mp hl)
    subst hnil
    exact Findall.nil
  | succ fuel ih =>
    intro l hl
    cases l with
    | nil => exact Findall.nil
    | cons c rest =>
      by_cases hc : isTokChar c = true
      · rw [show scanTokens (fuel + 1) (c :: rest) =
            ((c :: rest).takeWhile isTokChar ++
              (munchGroups ((c :: rest).dropWhile isTokChar).length
                ((c :: rest).dropWhile isTokChar)).1) ::
            scanTokens fuel
              (munchGroups ((c :: rest).dropWhile isTokChar).length
                ((c :: rest).dropWhile isTokChar)).2 from by simp [scanTokens, hc]]
        apply findall_token_step c rest _ _ _ hc (munchGroups_append _ _)
          (munchGroups_matches _ _) (scan_token_maximal c rest hc)
        apply ih
        have hsum : (munchGroups ((c :: rest).dropWhile isTokChar).length
              ((c :: rest).dropWhile isTokChar)).1.length +
            (munchGroups ((c :: rest).dropWhile isTokChar).length
              ((c :: rest).dropWhile isTokChar)).2.length =
            ((c :: rest).dropWhile isTokChar).length := by
          rw [← List.length_append, munchGroups_append]
        have hdrop : ((c :: rest).dropWhile isTokChar).length ≤ rest.length := by
          rw [List.dropWhile_cons_of_pos hc]
          have h2 : (rest.takeWhile isTokChar).length +
              (rest.dropWhile isTokChar).length = rest.length := by
            rw [← List.length_append, List.takeWhile_append_dropWhile]
          omega
        simp only [List.length_cons] at hl
        omega
      · rw [show scanTokens (fuel + 1) (c :: rest) = scanTokens fuel rest from by
          simp [scanTokens, hc]]
        apply Findall.skip
        · rintro t htne htpre ⟨run_u, gs_u, heq, hneu, htoku, _⟩
          cases run_u with
          | nil => exact hneu rfl
          | cons a run2 =>
            subst heq
            have hahc : a = c := by
              simpa using (List.cons_prefix_cons.mp (by simpa using htpre)).1
            exact hc (hahc ▸ htoku a (List.mem_cons_self _ _))
        · apply ih
          simp only [List.length_cons] at hl
          omega

/-- The findall specification is deterministic: it relates every input to at
most one token sequence, so together with scanTokens_findall it pins the
scanner output down completely. -/
theorem Findall_deterministic :
    ∀ (l : List Char) (ts₁ ts₂ : List (List Char)),
      Findall l ts₁ → Findall l ts₂ → ts₁ = ts₂ := by
  intro l ts₁ ts₂ h₁
  induction h₁ generalizing ts₂ with
  | nil =>
    intro h₂
    cases h₂ with
    | nil => rfl
    | tok l t rest ts hl htne _ _ _ =>
      exact absurd (List.append_eq_nil.mp hl.symm).1 htne
  | skip c l₀ ts₀ hno hrec ihr =>
    intro h₂
    cases h₂ with
    | skip _ _ _ _ hrec2 => exact ihr _ hrec2
    | tok l t rest ts hl htne hmt hmax hrec2 =>
      exact absurd hmt (hno t htne ⟨rest, hl.symm⟩)
  | tok l t rest ts hl htne hmt hmax hrec ihr =>
    intro h₂
    cases h₂ with
    | nil => exact absurd (List.append_eq_nil.mp hl.symm).1 htne
    | skip c l₀ ts₂ hno _ =>
      exact absurd hmt (hno t htne ⟨rest, hl.symm⟩)
    | tok l t₂ rest₂ ts₂ hl₂ htne₂ hmt₂ hmax₂ hrec₂ =>
      have hp1 : t <+: l := ⟨rest, hl.symm⟩
      have hp2 : t₂ <+: l := ⟨rest₂, hl₂.symm⟩
      have hle1 : t.length ≤ t₂.length := hmax₂ t hp1 hmt
      have hle2 : t₂.length ≤ t.length := hmax t₂ hp2 hmt₂
      have happ : t ++ rest = t₂ ++ rest₂ := by rw [← hl, ← hl₂]
      obtain ⟨hteq, hreq⟩ := List.append_inj happ (Nat.le_antisymm hle1 hle2)
      subst hteq
      subst hreq
      rw [ihr ts₂ hrec₂]

/-- Strings built from character lists unfold back to those lists. -/
theorem map_toList_map_mk (ll : List (List Char)) :
    ((ll.map (fun l => String.mk l)).map String.toList) = ll := by
  induction ll with
  | nil => rfl
  | cons h t ih =>
    simp only [List.map_cons]
    rw [ih]
    rfl

/-- C7: the tokenizer of the analyzer.  The empty input yields the empty
sequence; the two documented examples tokenize as stated; for every input,
the output is the ordered sequence of maximal runs of the lowercased input
matching the token pattern, with the characters that cannot start a match
discarded as separators (the declarative Findall relation, which by
Findall_deterministic determines the sequence uniquely); and every produced
token matches the token pattern. -/
theorem tokenize_text_spec :
    tokenize_text "" = [] ∧
    tokenize_text "don\x27t won\x27t can\x27t" = ["don\x27t", "won\x27t", "can\x27t"] ∧
    tokenize_text "Hello, world! Testing." = ["hello", "world", "testing"] ∧
    (∀ s : String,
      Findall (s.toList.map pyLowerChar) ((tokenize_text s).map String.toList)) ∧
    (∀ (s t : String), t ∈ tokenize_text s → MatchesToken t.toList) := by
  refine ⟨by decide, by decide, by decide, ?_, ?_⟩
  · intro s
    show Findall (s.toList.map pyLowerChar)
      (((scanTokens (s.toList.map pyLowerChar).length
        (s.toList.map pyLowerChar)).map (fun l => String.mk l)).map String.toList)
    rw [map_toList_map_mk]
    exact scanTokens_findall _ _ le_rfl
  · intro s t ht
    obtain ⟨l, hl, hmk⟩ := List.mem_map.mp ht
    have hteq : t.toList = l := by rw [← hmk]; rfl
    rw [hteq]
    exact scanTokens_matches _ _ _ hl

/-- Witness for C7: the pattern-match part applied at a concrete input. -/
theorem tokenize_text_spec_witness :
    MatchesToken (String.toList "don\x27t") :=
  tokenize_text_spec.2.2.2.2 "don\x27t won\x27t can\x27t" "don\x27t" (by decide)

end WordFreq

